import Mathlib

/-!
Verification of the geodesic-network geometry generator
(`GeodesicNetwork` component: point sampling on a sphere, nearest-neighbour
graph, slerp geodesic curves, subdivided spherical surface patches).

The embedding models the JavaScript numbers by real numbers.  The barycentric
weights of the patch subdivision are kept as rationals (they are exact
sixteenths, representable both in binary floating point and in `ℚ`), so that
the loop guard of the subdivision is decidable.
-/

namespace GeodesicNet

open Real

/-- 3D vector with real components, mirroring `THREE.Vector3`. -/
@[ext]
structure Vec3 where
  x : ℝ
  y : ℝ
  z : ℝ

namespace Vec3

instance : Zero Vec3 := ⟨⟨0, 0, 0⟩⟩

instance : Add Vec3 := ⟨fun a b => ⟨a.x + b.x, a.y + b.y, a.z + b.z⟩⟩

instance : Neg Vec3 := ⟨fun a => ⟨-a.x, -a.y, -a.z⟩⟩

instance : Sub Vec3 := ⟨fun a b => ⟨a.x - b.x, a.y - b.y, a.z - b.z⟩⟩

instance : SMul ℝ Vec3 := ⟨fun c v => ⟨c * v.x, c * v.y, c * v.z⟩⟩

@[simp] theorem zero_x : (0 : Vec3).x = 0 := rfl

@[simp] theorem zero_y : (0 : Vec3).y = 0 := rfl

@[simp] theorem zero_z : (0 : Vec3).z = 0 := rfl

@[simp] theorem add_x (a b : Vec3) : (a + b).x = a.x + b.x := rfl

@[simp] theorem add_y (a b : Vec3) : (a + b).y = a.y + b.y := rfl

@[simp] theorem add_z (a b : Vec3) : (a + b).z = a.z + b.z := rfl

@[simp] theorem neg_x (a : Vec3) : (-a).x = -a.x := rfl

@[simp] theorem neg_y (a : Vec3) : (-a).y = -a.y := rfl

@[simp] theorem neg_z (a : Vec3) : (-a).z = -a.z := rfl

@[simp] theorem sub_x (a b : Vec3) : (a - b).x = a.x - b.x := rfl

@[simp] theorem sub_y (a b : Vec3) : (a - b).y = a.y - b.y := rfl

@[simp] theorem sub_z (a b : Vec3) : (a - b).z = a.z - b.z := rfl

@[simp] theorem smul_x (c : ℝ) (v : Vec3) : (c • v).x = c * v.x := rfl

@[simp] theorem smul_y (c : ℝ) (v : Vec3) : (c • v).y = c * v.y := rfl

@[simp] theorem smul_z (c : ℝ) (v : Vec3) : (c • v).z = c * v.z := rfl

/-- `THREE.Vector3.dot`. -/
def dot (a b : Vec3) : ℝ := a.x * b.x + a.y * b.y + a.z * b.z

/-- `THREE.Vector3.cross` (right-handed component formula used by three.js). -/
def cross (a b : Vec3) : Vec3 :=
  ⟨a.y * b.z - a.z * b.y, a.z * b.x - a.x * b.z, a.x * b.y - a.y * b.x⟩

/-- `THREE.Vector3.lengthSq`. -/
def lengthSq (a : Vec3) : ℝ := a.x * a.x + a.y * a.y + a.z * a.z

/-- `THREE.Vector3.length`. -/
noncomputable def length (a : Vec3) : ℝ := Real.sqrt a.lengthSq

/-- `THREE.Vector3.distanceTo`. -/
noncomputable def distanceTo (a b : Vec3) : ℝ := (a - b).length

/-- `THREE.Vector3.normalize`: `divideScalar(this.length() || 1)`; a zero
vector is left unchanged (division by the fallback scalar 1). -/
noncomputable def normalize (v : Vec3) : Vec3 :=
  if v.length = 0 then v else (1 / v.length) • v

/-- `THREE.Vector3.angleTo`: `acos(clamp(dot/√(lenSq·lenSq), -1, 1))`, with
`π/2` returned when the denominator is zero. -/
noncomputable def angleTo (a b : Vec3) : ℝ :=
  if Real.sqrt (a.lengthSq * b.lengthSq) = 0 then π / 2
  else Real.arccos (max (-1) (min 1 (a.dot b / Real.sqrt (a.lengthSq * b.lengthSq))))

theorem lengthSq_nonneg (v : Vec3) : 0 ≤ v.lengthSq := by
  have hx := mul_self_nonneg v.x
  have hy := mul_self_nonneg v.y
  have hz := mul_self_nonneg v.z
  unfold lengthSq; linarith

theorem lengthSq_eq_zero {v : Vec3} : v.lengthSq = 0 ↔ v = 0 := by
  constructor
  · intro h
    have hx := mul_self_nonneg v.x
    have hy := mul_self_nonneg v.y
    have hz := mul_self_nonneg v.z
    unfold lengthSq at h
    have hx0 : v.x = 0 := by nlinarith
    have hy0 : v.y = 0 := by nlinarith
    have hz0 : v.z = 0 := by nlinarith
    ext <;> simp [hx0, hy0, hz0]
  · intro h; subst h; simp [lengthSq]

theorem length_eq_zero {v : Vec3} : v.length = 0 ↔ v = 0 := by
  unfold length
  rw [Real.sqrt_eq_zero (lengthSq_nonneg v)]
  exact lengthSq_eq_zero

theorem length_nonneg (v : Vec3) : 0 ≤ v.length := Real.sqrt_nonneg _

theorem sq_length (v : Vec3) : v.length * v.length = v.lengthSq := by
  unfold length
  exact Real.mul_self_sqrt (lengthSq_nonneg v)

theorem length_smul (c : ℝ) (v : Vec3) : (c • v).length = |c| * v.length := by
  unfold length lengthSq
  have h : (c • v).x * (c • v).x + (c • v).y * (c • v).y + (c • v).z * (c • v).z
      = c ^ 2 * (v.x * v.x + v.y * v.y + v.z * v.z) := by simp; ring
  rw [h, Real.sqrt_mul (sq_nonneg c), Real.sqrt_sq_eq_abs]

theorem normalize_length {v : Vec3} (hv : v ≠ 0) : v.normalize.length = 1 := by
  have hlen : v.length ≠ 0 := fun h => hv (length_eq_zero.mp h)
  have hpos : 0 < v.length := lt_of_le_of_ne (length_nonneg v) (Ne.symm hlen)
  unfold normalize
  rw [if_neg hlen, length_smul]
  rw [abs_of_pos (by positivity)]
  field_simp

/-- Lagrange's identity for the three-dimensional cross product. -/
theorem lagrange_identity (a b : Vec3) :
    a.dot b * a.dot b + (a.cross b).lengthSq = a.lengthSq * b.lengthSq := by
  unfold dot cross lengthSq
  ring

theorem cross_smul_left (c : ℝ) (a b : Vec3) : (c • a).cross b = c • a.cross b := by
  unfold cross; ext <;> simp <;> ring

theorem cross_add_left (a b w : Vec3) : (a + b).cross w = a.cross w + b.cross w := by
  unfold cross; ext <;> simp <;> ring

theorem cross_self (a : Vec3) : a.cross a = 0 := by
  unfold cross; ext <;> simp <;> ring

theorem smul_eq_zero_iff {c : ℝ} {v : Vec3} : c • v = 0 ↔ c = 0 ∨ v = 0 := by
  constructor
  · intro h
    by_cases hc : c = 0
    · exact Or.inl hc
    · refine Or.inr ?_
      have hx : c * v.x = 0 := congrArg Vec3.x h
      have hy : c * v.y = 0 := congrArg Vec3.y h
      have hz : c * v.z = 0 := congrArg Vec3.z h
      ext
      · exact (mul_eq_zero.mp hx).resolve_left hc
      · exact (mul_eq_zero.mp hy).resolve_left hc
      · exact (mul_eq_zero.mp hz).resolve_left hc
  · rintro (h | h) <;> subst h <;> ext <;> simp

theorem smul_smul' (c d : ℝ) (v : Vec3) : c • d • v = (c * d) • v := by
  ext <;> simp <;> ring

theorem one_smul' (v : Vec3) : (1 : ℝ) • v = v := by ext <;> simp

theorem zero_smul' (v : Vec3) : (0 : ℝ) • v = 0 := by ext <;> simp

theorem add_zero' (v : Vec3) : v + 0 = v := by ext <;> simp

theorem lengthSq_of_length {v : Vec3} {r : ℝ} (h : v.length = r) :
    v.lengthSq = r * r := by rw [← sq_length, h]

theorem dot_self (v : Vec3) : v.dot v = v.lengthSq := by unfold dot lengthSq; ring

theorem dot_neg_right (a b : Vec3) : a.dot (-b) = -(a.dot b) := by
  unfold dot; simp; ring

theorem lengthSq_neg (v : Vec3) : (-v).lengthSq = v.lengthSq := by
  unfold lengthSq; simp

/-- The denominator of `angleTo` for two vectors of common length `r`. -/
theorem angleTo_denom {p1 p2 : Vec3} {r : ℝ} (hr : 0 < r)
    (h1 : p1.length = r) (h2 : p2.length = r) :
    Real.sqrt (p1.lengthSq * p2.lengthSq) = r * r := by
  rw [lengthSq_of_length h1, lengthSq_of_length h2,
    show r * r * (r * r) = (r * r) ^ 2 by ring, Real.sqrt_sq (by positivity)]

theorem angleTo_eq_arccos {p1 p2 : Vec3} {r : ℝ} (hr : 0 < r)
    (h1 : p1.length = r) (h2 : p2.length = r) :
    p1.angleTo p2 = Real.arccos (max (-1) (min 1 (p1.dot p2 / (r * r)))) := by
  unfold angleTo
  rw [angleTo_denom hr h1 h2, if_neg (by positivity)]

/-- Coincident input vectors give angle `0`. -/
theorem angleTo_self {p : Vec3} {r : ℝ} (hr : 0 < r) (h : p.length = r) :
    p.angleTo p = 0 := by
  rw [angleTo_eq_arccos hr h h, dot_self, lengthSq_of_length h,
    div_self (by positivity)]
  rw [min_self, max_eq_right (by norm_num), Real.arccos_one]

/-- Antipodal input vectors give angle `π`. -/
theorem angleTo_neg_self {p : Vec3} {r : ℝ} (hr : 0 < r) (h : p.length = r) :
    p.angleTo (-p) = π := by
  have hn : (-p).length = r := by unfold length; rw [lengthSq_neg]; exact h
  rw [angleTo_eq_arccos hr h hn, dot_neg_right, dot_self, lengthSq_of_length h,
    neg_div, div_self (by positivity)]
  rw [min_eq_right (by norm_num), max_self, Real.arccos_neg_one]

theorem lengthSq_sub (a b : Vec3) :
    (a - b).lengthSq = a.lengthSq + b.lengthSq - 2 * a.dot b := by
  unfold lengthSq dot; simp; ring

theorem lengthSq_add (a b : Vec3) :
    (a + b).lengthSq = a.lengthSq + b.lengthSq + 2 * a.dot b := by
  unfold lengthSq dot; simp; ring

theorem zero_cross (b : Vec3) : (0 : Vec3).cross b = 0 := by
  unfold cross; ext <;> simp

theorem ne_zero_of_length_pos {v : Vec3} {r : ℝ} (hr : 0 < r)
    (h : v.length = r) : v ≠ 0 := by
  intro h0
  rw [h0] at h
  rw [length_eq_zero.mpr rfl] at h
  exact absurd h.symm (ne_of_gt hr)

/-- Strict Cauchy-Schwarz bounds on the dot product of two equal-length
vectors that are neither coincident nor antipodal. -/
theorem dot_bounds {p1 p2 : Vec3} {r : ℝ} (hr : 0 < r)
    (h1 : p1.length = r) (h2 : p2.length = r)
    (hne : p1 ≠ p2) (hna : p1 ≠ -p2) :
    -(r * r) < p1.dot p2 ∧ p1.dot p2 < r * r := by
  have hlag := lagrange_identity p1 p2
  have hcn := lengthSq_nonneg (p1.cross p2)
  have hq1 := lengthSq_of_length h1
  have hq2 := lengthSq_of_length h2
  rw [hq1, hq2] at hlag
  have hub : p1.dot p2 ≤ r * r := by nlinarith
  have hlb : -(r * r) ≤ p1.dot p2 := by nlinarith
  constructor
  · rcases lt_or_eq_of_le hlb with h | h
    · exact h
    · exfalso
      apply hna
      have hz : (p1 + p2).lengthSq = 0 := by
        rw [lengthSq_add, hq1, hq2, ← h]; ring
      have := lengthSq_eq_zero.mp hz
      ext
      · have := congrArg Vec3.x this; simp at this ⊢; linarith
      · have := congrArg Vec3.y this; simp at this ⊢; linarith
      · have := congrArg Vec3.z this; simp at this ⊢; linarith
  · rcases lt_or_eq_of_le hub with h | h
    · exact h
    · exfalso
      apply hne
      have hz : (p1 - p2).lengthSq = 0 := by
        rw [lengthSq_sub, hq1, hq2, h]; ring
      have := lengthSq_eq_zero.mp hz
      ext
      · have := congrArg Vec3.x this; simp at this ⊢; linarith
      · have := congrArg Vec3.y this; simp at this ⊢; linarith
      · have := congrArg Vec3.z this; simp at this ⊢; linarith

/-- For equal-length, non-coincident, non-antipodal inputs the angle computed
by `angleTo` lies strictly between `0` and `π`. -/
theorem angleTo_mem {p1 p2 : Vec3} {r : ℝ} (hr : 0 < r)
    (h1 : p1.length = r) (h2 : p2.length = r)
    (hne : p1 ≠ p2) (hna : p1 ≠ -p2) :
    0 < p1.angleTo p2 ∧ p1.angleTo p2 < π := by
  obtain ⟨hlb, hub⟩ := dot_bounds hr h1 h2 hne hna
  have hrr : (0 : ℝ) < r * r := by positivity
  have hratio1 : p1.dot p2 / (r * r) < 1 := (div_lt_one hrr).mpr hub
  have hratio2 : (-1 : ℝ) < p1.dot p2 / (r * r) := by
    rw [lt_div_iff hrr]; linarith
  rw [angleTo_eq_arccos hr h1 h2, min_eq_right hratio1.le,
    max_eq_right hratio2.le]
  constructor
  · exact Real.arccos_pos.mpr hratio1
  · rcases lt_or_eq_of_le (Real.arccos_le_pi (p1.dot p2 / (r * r))) with h | h
    · exact h
    · exfalso
      have := Real.arccos_eq_pi.mp h
      linarith

theorem sin_angleTo_pos {p1 p2 : Vec3} {r : ℝ} (hr : 0 < r)
    (h1 : p1.length = r) (h2 : p2.length = r)
    (hne : p1 ≠ p2) (hna : p1 ≠ -p2) :
    0 < Real.sin (p1.angleTo p2) := by
  obtain ⟨h0, hpi⟩ := angleTo_mem hr h1 h2 hne hna
  exact Real.sin_pos_of_pos_of_lt_pi h0 hpi

/-- Non-coincident, non-antipodal equal-length vectors are linearly
independent: their cross product is nonzero. -/
theorem cross_ne_zero {p1 p2 : Vec3} {r : ℝ} (hr : 0 < r)
    (h1 : p1.length = r) (h2 : p2.length = r)
    (hne : p1 ≠ p2) (hna : p1 ≠ -p2) :
    p1.cross p2 ≠ 0 := by
  obtain ⟨hlb, hub⟩ := dot_bounds hr h1 h2 hne hna
  have hlag := lagrange_identity p1 p2
  rw [lengthSq_of_length h1, lengthSq_of_length h2] at hlag
  intro h0
  rw [h0] at hlag
  have : (0 : Vec3).lengthSq = 0 := lengthSq_eq_zero.mpr rfl
  rw [this] at hlag
  nlinarith

/-- A combination `a • p1 + b • p2` of independent vectors with `(a, b)` not
both zero is nonzero. -/
theorem combo_ne_zero {a b : ℝ} {p1 p2 : Vec3}
    (hcross : p1.cross p2 ≠ 0) (hp2 : p2 ≠ 0) (hab : a ≠ 0 ∨ b ≠ 0) :
    a • p1 + b • p2 ≠ 0 := by
  intro h
  have hc : (a • p1 + b • p2).cross p2 = a • (p1.cross p2) := by
    rw [cross_add_left, cross_smul_left, cross_smul_left, cross_self]
    ext <;> simp
  rw [h, zero_cross] at hc
  have ha : a = 0 := by
    rcases smul_eq_zero_iff.mp hc.symm with h' | h'
    · exact h'
    · exact absurd h' hcross
  subst ha
  rw [zero_smul'] at h
  have hzadd : (0 : Vec3) + b • p2 = b • p2 := by ext <;> simp
  rw [hzadd] at h
  rcases smul_eq_zero_iff.mp h with h' | h'
  · rcases hab with h'' | h''
    · exact h'' rfl
    · exact h'' h'
  · exact hp2 h'

theorem smul_normalize_of_length {v : Vec3} {r : ℝ} (hr : 0 < r)
    (hv : v.length = r) : r • v.normalize = v := by
  unfold normalize
  rw [hv, if_neg (ne_of_gt hr), smul_smul', mul_one_div, div_self (ne_of_gt hr),
    one_smul']

end Vec3

/-- One sample of `generateGeodesicCurve` (the body of its `for` loop):
slerp between `point1` and `point2` at parameter `t = i/segments`, with the
degenerate fallback when `sin(angle) = 0`, then re-projection onto the sphere
(`normalize().multiplyScalar(radius)`). -/
noncomputable def geodesicSample (radius : ℝ) (point1 point2 : Vec3)
    (segments i : ℕ) : Vec3 :=
  let t : ℝ := (i : ℝ) / (segments : ℝ)
  let angle := point1.angleTo point2
  let sinAngle := Real.sin angle
  if sinAngle = 0 then point1
  else
    let a := Real.sin ((1 - t) * angle) / sinAngle
    let b := Real.sin (t * angle) / sinAngle
    radius • (a • point1 + b • point2).normalize

/-- `generateGeodesicCurve(point1, point2, segments)`: the points pushed by
the loop `for (i = 0; i <= segments; i++)`.  `radius` is the enclosing
component's radius prop, captured by the closure. -/
noncomputable def generateGeodesicCurve (radius : ℝ) (point1 point2 : Vec3)
    (segments : ℕ) : List Vec3 :=
  (List.range (segments + 1)).map (geodesicSample radius point1 point2 segments)

theorem geodesicSample_of_sin_zero {radius : ℝ} {point1 point2 : Vec3}
    (h : Real.sin (point1.angleTo point2) = 0) (segments i : ℕ) :
    geodesicSample radius point1 point2 segments i = point1 := by
  unfold geodesicSample
  simp [h]

theorem geodesicSample_of_sin_ne {radius : ℝ} {point1 point2 : Vec3}
    (h : Real.sin (point1.angleTo point2) ≠ 0) (segments i : ℕ) :
    geodesicSample radius point1 point2 segments i =
      radius •
        ((Real.sin ((1 - (i : ℝ) / (segments : ℝ)) * point1.angleTo point2) /
            Real.sin (point1.angleTo point2)) • point1 +
          (Real.sin (((i : ℝ) / (segments : ℝ)) * point1.angleTo point2) /
            Real.sin (point1.angleTo point2)) • point2).normalize := by
  unfold geodesicSample
  simp [h]

theorem length_generateGeodesicCurve (radius : ℝ) (p1 p2 : Vec3) (S : ℕ) :
    (generateGeodesicCurve radius p1 p2 S).length = S + 1 := by
  unfold generateGeodesicCurve
  simp

/-- C2: for equal-radius endpoints that are neither coincident nor antipodal
and any `segment_count S ≥ 1`, the traced curve has exactly `S+1` points, its
first element is `point1`, its last element is `point2` (here: exactly, which
implies the claim's tolerance), and every element has magnitude exactly
`radius`. -/
theorem geodesic_curve_endpoints_and_radius (radius : ℝ) (p1 p2 : Vec3) (S : ℕ)
    (hr : 0 < radius) (h1 : p1.length = radius) (h2 : p2.length = radius)
    (hne : p1 ≠ p2) (hna : p1 ≠ -p2) (hS : 1 ≤ S) :
    (generateGeodesicCurve radius p1 p2 S).length = S + 1 ∧
      (generateGeodesicCurve radius p1 p2 S)[0]? = some p1 ∧
      (generateGeodesicCurve radius p1 p2 S)[S]? = some p2 ∧
      ∀ q ∈ generateGeodesicCurve radius p1 p2 S, q.length = radius := by
  have hsinpos := Vec3.sin_angleTo_pos hr h1 h2 hne hna
  have hsne : Real.sin (p1.angleTo p2) ≠ 0 := ne_of_gt hsinpos
  have hS0 : (S : ℝ) ≠ 0 := Nat.cast_ne_zero.mpr (by omega)
  obtain ⟨hang0, hangpi⟩ := Vec3.angleTo_mem hr h1 h2 hne hna
  have hcross := Vec3.cross_ne_zero hr h1 h2 hne hna
  have hp2ne : p2 ≠ 0 := Vec3.ne_zero_of_length_pos hr h2
  have hsample0 : geodesicSample radius p1 p2 S 0 = p1 := by
    rw [geodesicSample_of_sin_ne hsne]
    rw [Nat.cast_zero, zero_div, sub_zero, one_mul, div_self hsne, zero_mul,
      Real.sin_zero, zero_div, Vec3.one_smul', Vec3.zero_smul', Vec3.add_zero']
    exact Vec3.smul_normalize_of_length hr h1
  have hsampleS : geodesicSample radius p1 p2 S S = p2 := by
    rw [geodesicSample_of_sin_ne hsne]
    rw [div_self hS0, sub_self, zero_mul, Real.sin_zero, zero_div, one_mul,
      div_self hsne, Vec3.zero_smul', Vec3.one_smul']
    have hzadd : (0 : Vec3) + p2 = p2 := by ext <;> simp
    rw [hzadd]
    exact Vec3.smul_normalize_of_length hr h2
  refine ⟨length_generateGeodesicCurve radius p1 p2 S, ?_, ?_, ?_⟩
  · unfold generateGeodesicCurve
    rw [List.getElem?_map, List.getElem?_range (by omega)]
    simp [hsample0]
  · unfold generateGeodesicCurve
    rw [List.getElem?_map, List.getElem?_range (by omega)]
    simp [hsampleS]
  · intro q hq
    unfold generateGeodesicCurve at hq
    rw [List.mem_map] at hq
    obtain ⟨i, hi, hqi⟩ := hq
    rw [List.mem_range] at hi
    rw [geodesicSample_of_sin_ne hsne] at hqi
    set a := Real.sin ((1 - (i : ℝ) / (S : ℝ)) * p1.angleTo p2) /
      Real.sin (p1.angleTo p2) with ha_def
    set b := Real.sin (((i : ℝ) / (S : ℝ)) * p1.angleTo p2) /
      Real.sin (p1.angleTo p2) with hb_def
    have hab : a ≠ 0 ∨ b ≠ 0 := by
      rcases Nat.lt_or_ge i S with hiS | hiS
      · left
        have ht1 : (i : ℝ) / (S : ℝ) < 1 := by
          rw [div_lt_one (by positivity)]
          exact_mod_cast hiS
        have ht0 : 0 ≤ (i : ℝ) / (S : ℝ) := by positivity
        have hpos : 0 < (1 - (i : ℝ) / (S : ℝ)) * p1.angleTo p2 := by
          apply mul_pos (by linarith) hang0
        have hlt : (1 - (i : ℝ) / (S : ℝ)) * p1.angleTo p2 < π := by
          have hle1 : (1 - (i : ℝ) / (S : ℝ)) * p1.angleTo p2 ≤ p1.angleTo p2 := by
            apply mul_le_of_le_one_left hang0.le
            linarith
          linarith
        have := Real.sin_pos_of_pos_of_lt_pi hpos hlt
        rw [ha_def]
        positivity
      · right
        have hiS' : i = S := by omega
        rw [hb_def, hiS', div_self hS0, one_mul, div_self hsne]
        norm_num
    have hvne : a • p1 + b • p2 ≠ 0 := Vec3.combo_ne_zero hcross hp2ne hab
    rw [← hqi, Vec3.length_smul, Vec3.normalize_length hvne, mul_one,
      abs_of_pos hr]

/-- C2 witness: `p1 = (1.5,0,0)`, `p2 = (0,1.5,0)`, `radius = 1.5`, `S = 15`. -/
theorem geodesic_curve_endpoints_and_radius_witness :
    (0 : ℝ) < 1.5 ∧ (Vec3.mk 1.5 0 0).length = 1.5 ∧
      (Vec3.mk 0 1.5 0).length = 1.5 ∧
      Vec3.mk 1.5 0 0 ≠ Vec3.mk 0 1.5 0 ∧
      Vec3.mk 1.5 0 0 ≠ -Vec3.mk 0 1.5 0 ∧ 1 ≤ 15 ∧
      ((generateGeodesicCurve 1.5 (Vec3.mk 1.5 0 0) (Vec3.mk 0 1.5 0) 15).length
          = 15 + 1 ∧
        (generateGeodesicCurve 1.5 (Vec3.mk 1.5 0 0) (Vec3.mk 0 1.5 0) 15)[0]?
          = some (Vec3.mk 1.5 0 0) ∧
        (generateGeodesicCurve 1.5 (Vec3.mk 1.5 0 0) (Vec3.mk 0 1.5 0) 15)[15]?
          = some (Vec3.mk 0 1.5 0) ∧
        ∀ q ∈ generateGeodesicCurve 1.5 (Vec3.mk 1.5 0 0) (Vec3.mk 0 1.5 0) 15,
          q.length = 1.5) := by
  have hl1 : (Vec3.mk 1.5 0 0).length = 1.5 := by
    unfold Vec3.length Vec3.lengthSq
    rw [show ((Vec3.mk 1.5 0 0).x * (Vec3.mk 1.5 0 0).x +
        (Vec3.mk 1.5 0 0).y * (Vec3.mk 1.5 0 0).y +
        (Vec3.mk 1.5 0 0).z * (Vec3.mk 1.5 0 0).z : ℝ) = 1.5 ^ 2 by norm_num,
      Real.sqrt_sq (by norm_num)]
  have hl2 : (Vec3.mk 0 1.5 0).length = 1.5 := by
    unfold Vec3.length Vec3.lengthSq
    rw [show ((Vec3.mk 0 1.5 0).x * (Vec3.mk 0 1.5 0).x +
        (Vec3.mk 0 1.5 0).y * (Vec3.mk 0 1.5 0).y +
        (Vec3.mk 0 1.5 0).z * (Vec3.mk 0 1.5 0).z : ℝ) = 1.5 ^ 2 by norm_num,
      Real.sqrt_sq (by norm_num)]
  have hne : Vec3.mk 1.5 0 0 ≠ Vec3.mk 0 1.5 0 := by
    intro h
    have := congrArg Vec3.x h
    norm_num at this
  have hna : Vec3.mk 1.5 0 0 ≠ -Vec3.mk 0 1.5 0 := by
    intro h
    have := congrArg Vec3.x h
    simp at this
    norm_num at this
  exact ⟨by norm_num, hl1, hl2, hne, hna, by norm_num,
    geodesic_curve_endpoints_and_radius 1.5 (Vec3.mk 1.5 0 0) (Vec3.mk 0 1.5 0)
      15 (by norm_num) hl1 hl2 hne hna (by norm_num)⟩

/-- C7: for `|P| = radius`, `generateGeodesicCurve(P, P, 10)` returns exactly
11 copies of `P` (the zero-sine fallback branch is taken at every sample;
total function, so no NaN and no exception in the real-number model). -/
theorem coincident_curve_eq_replicate (radius : ℝ) (P : Vec3)
    (hr : 0 < radius) (hP : P.length = radius) :
    generateGeodesicCurve radius P P 10 = List.replicate 11 P := by
  have hsin : Real.sin (P.angleTo P) = 0 := by
    rw [Vec3.angleTo_self hr hP, Real.sin_zero]
  unfold generateGeodesicCurve
  rw [List.eq_replicate_iff]
  constructor
  · simp
  · intro b hb
    rw [List.mem_map] at hb
    obtain ⟨i, _, hi⟩ := hb
    rw [← hi, geodesicSample_of_sin_zero hsin]

/-- C7 witness at `P = (0,0,1.5)`, `radius = 1.5`. -/
theorem coincident_curve_eq_replicate_witness :
    (0 : ℝ) < 1.5 ∧ (Vec3.mk 0 0 1.5).length = 1.5 ∧
      generateGeodesicCurve 1.5 (Vec3.mk 0 0 1.5) (Vec3.mk 0 0 1.5) 10
        = List.replicate 11 (Vec3.mk 0 0 1.5) := by
  have hlen : (Vec3.mk 0 0 1.5).length = 1.5 := by
    unfold Vec3.length Vec3.lengthSq
    rw [show ((Vec3.mk 0 0 1.5).x * (Vec3.mk 0 0 1.5).x +
        (Vec3.mk 0 0 1.5).y * (Vec3.mk 0 0 1.5).y +
        (Vec3.mk 0 0 1.5).z * (Vec3.mk 0 0 1.5).z : ℝ) = 1.5 ^ 2 by norm_num,
      Real.sqrt_sq (by norm_num)]
  exact ⟨by norm_num, hlen,
    coincident_curve_eq_replicate 1.5 (Vec3.mk 0 0 1.5) (by norm_num) hlen⟩

/-- C1: for `|P| = radius`, `generateGeodesicCurve(P, -P, 10)` (antipodal
endpoints) returns a well-defined sequence of 11 elements, every element
equal to `P`: the near-zero-sine fallback branch is taken for every sample
since `sin(π) = 0`. -/
theorem antipodal_curve_eq_replicate (radius : ℝ) (P : Vec3)
    (hr : 0 < radius) (hP : P.length = radius) :
    generateGeodesicCurve radius P (-P) 10 = List.replicate 11 P := by
  have hsin : Real.sin (P.angleTo (-P)) = 0 := by
    rw [Vec3.angleTo_neg_self hr hP, Real.sin_pi]
  unfold generateGeodesicCurve
  rw [List.eq_replicate_iff]
  constructor
  · simp
  · intro b hb
    rw [List.mem_map] at hb
    obtain ⟨i, _, hi⟩ := hb
    rw [← hi, geodesicSample_of_sin_zero hsin]

/-- C1 witness at `P = (0,0,1.5)`, `radius = 1.5`. -/
theorem antipodal_curve_eq_replicate_witness :
    (0 : ℝ) < 1.5 ∧ (Vec3.mk 0 0 1.5).length = 1.5 ∧
      generateGeodesicCurve 1.5 (Vec3.mk 0 0 1.5) (-Vec3.mk 0 0 1.5) 10
        = List.replicate 11 (Vec3.mk 0 0 1.5) := by
  have hlen : (Vec3.mk 0 0 1.5).length = 1.5 := by
    unfold Vec3.length Vec3.lengthSq
    rw [show ((Vec3.mk 0 0 1.5).x * (Vec3.mk 0 0 1.5).x +
        (Vec3.mk 0 0 1.5).y * (Vec3.mk 0 0 1.5).y +
        (Vec3.mk 0 0 1.5).z * (Vec3.mk 0 0 1.5).z : ℝ) = 1.5 ^ 2 by norm_num,
      Real.sqrt_sq (by norm_num)]
  exact ⟨by norm_num, hlen,
    antipodal_curve_eq_replicate 1.5 (Vec3.mk 0 0 1.5) (by norm_num) hlen⟩

/-! ## Point sampler -/

/-- Golden ratio `(1 + √5) / 2` used by the Fibonacci spiral. -/
noncomputable def golden : ℝ := (1 + Real.sqrt 5) / 2

/-- Position built from spherical angles exactly as in the source:
`(radius·sinφ·cosθ, radius·sinφ·sinθ, radius·cosφ)`. -/
noncomputable def sphericalPosition (radius θ φ : ℝ) : Vec3 :=
  ⟨radius * Real.sin φ * Real.cos θ, radius * Real.sin φ * Real.sin θ,
    radius * Real.cos φ⟩

/-- Position of point `i` of `generateFibonacciSphere(numPoints)`. -/
noncomputable def fibonacciPosition (radius : ℝ) (numPoints i : ℕ) : Vec3 :=
  sphericalPosition radius (2 * π * (i : ℝ) / golden)
    (Real.arccos (1 - 2 * ((i : ℝ) + 0.5) / (numPoints : ℝ)))

/-- Position of a point of the random variant, with `u1, u2` the two
`Math.random()` draws: `θ = u1·π·2`, `φ = acos(1 − 2·u2)`. -/
noncomputable def randomPosition (radius u1 u2 : ℝ) : Vec3 :=
  sphericalPosition radius (u1 * (π * 2)) (Real.arccos (1 - 2 * u2))

theorem sphericalPosition_length (radius θ φ : ℝ) (h : 0 ≤ radius) :
    (sphericalPosition radius θ φ).length = radius := by
  unfold sphericalPosition Vec3.length Vec3.lengthSq
  have h1 := Real.sin_sq_add_cos_sq θ
  have h2 := Real.sin_sq_add_cos_sq φ
  have hexpr :
      (radius * Real.sin φ * Real.cos θ) * (radius * Real.sin φ * Real.cos θ) +
        (radius * Real.sin φ * Real.sin θ) * (radius * Real.sin φ * Real.sin θ) +
        (radius * Real.cos φ) * (radius * Real.cos φ) = radius ^ 2 := by
    linear_combination (radius ^ 2 * Real.sin φ ^ 2) * h1 + radius ^ 2 * h2
  rw [hexpr, Real.sqrt_sq h]

/-- C6: every point produced by the sampler, in Fibonacci mode or in random
mode, has position magnitude exactly equal to the given radius (hence within
the claim's 1e-6 tolerance). -/
theorem sampler_positions_on_sphere (radius : ℝ) (h : 0 ≤ radius) :
    (∀ numPoints i : ℕ, (fibonacciPosition radius numPoints i).length = radius) ∧
      ∀ u1 u2 : ℝ, (randomPosition radius u1 u2).length = radius := by
  constructor
  · intro numPoints i
    exact sphericalPosition_length _ _ _ h
  · intro u1 u2
    exact sphericalPosition_length _ _ _ h

/-- C6 witness at the production radius 1.5. -/
theorem sampler_positions_on_sphere_witness :
    (0 : ℝ) ≤ 1.5 ∧
      ((∀ numPoints i : ℕ,
          (fibonacciPosition 1.5 numPoints i).length = 1.5) ∧
        ∀ u1 u2 : ℝ, (randomPosition 1.5 u1 u2).length = 1.5) :=
  ⟨by norm_num, sampler_positions_on_sphere 1.5 (by norm_num)⟩

/-! ## Neighbour graph -/

/-- `point.position.distanceTo(otherPoint.position)` for indices into the
point list. -/
noncomputable def distKey (pts : List Vec3) (i j : ℕ) : ℝ :=
  (pts.getD i 0).distanceTo (pts.getD j 0)

/-- The candidate records `{index: j, distance}` in their construction order
(`points.map` runs in index order), after `.filter(d => d.index !== i)`,
identified by their index. -/
def neighborCandidates (n i : ℕ) : List ℕ :=
  (List.range n).filter (fun j => j ≠ i)

/-- The `.sort((a, b) => a.distance - b.distance)` step: a stable sort by the
distance key (JavaScript `Array.prototype.sort` is stable), modelled by
insertion sort. -/
noncomputable def sortByDist (pts : List Vec3) (i : ℕ) (l : List ℕ) : List ℕ :=
  List.insertionSort (fun a b => distKey pts i a ≤ distKey pts i b) l

/-- `point.neighbors`: the first `K` indices of the distance-sorted candidate
list (`.slice(0, numConnections).map(d => d.index)`). -/
noncomputable def neighborIndices (pts : List Vec3) (i K : ℕ) : List ℕ :=
  (sortByDist pts i (neighborCandidates pts.length i)).take K

/-- Strict "distance, then original index" order: the order realised by a
stable ascending sort by distance of an index-ordered list. -/
def lexNear (key : ℕ → ℝ) (a b : ℕ) : Prop :=
  key a < key b ∨ (key a = key b ∧ a < b)

theorem orderedInsert_pairwise_lexNear (key : ℕ → ℝ) (a : ℕ) :
    ∀ m : List ℕ, m.Pairwise (lexNear key) → (∀ b ∈ m, a < b) →
      (List.orderedInsert (fun x y => key x ≤ key y) a m).Pairwise (lexNear key) := by
  intro m
  induction m with
  | nil =>
    intro _ _
    simp [List.orderedInsert]
  | cons b m' ih =>
    intro hp ha
    have hpm' : m'.Pairwise (lexNear key) := hp.of_cons
    have hbm' : ∀ c ∈ m', lexNear key b c := fun c hc =>
      List.rel_of_pairwise_cons hp hc
    by_cases hab : key a ≤ key b
    · rw [List.orderedInsert, if_pos hab]
      constructor
      · intro c hc
        rcases List.mem_cons.mp hc with rfl | hc'
        · rcases lt_or_eq_of_le hab with h | h
          · exact Or.inl h
          · exact Or.inr ⟨h, ha c (List.mem_cons_self c m')⟩
        · have hbc : key b ≤ key c := by
            rcases hbm' c hc' with h | h
            · exact h.le
            · exact h.1.le
          rcases lt_or_eq_of_le (le_trans hab hbc) with h | h
          · exact Or.inl h
          · exact Or.inr ⟨h, ha c (List.mem_cons_of_mem b hc')⟩
      · exact hp
    · rw [List.orderedInsert, if_neg hab]
      push_neg at hab
      constructor
      · intro c hc
        rcases (List.mem_orderedInsert _).mp hc with rfl | hc'
        · exact Or.inl hab
        · exact hbm' c hc'
      · exact ih hpm' fun c hc => ha c (List.mem_cons_of_mem b hc)

/-- Stability of the distance sort: sorting an index-ascending list with the
non-strict distance comparator yields a list pairwise in
distance-then-original-index order. -/
theorem insertionSort_pairwise_lexNear (key : ℕ → ℝ) :
    ∀ l : List ℕ, l.Pairwise (· < ·) →
      (List.insertionSort (fun x y => key x ≤ key y) l).Pairwise (lexNear key) := by
  intro l
  induction l with
  | nil =>
    intro _
    simp [List.insertionSort]
  | cons a l ih =>
    intro hp
    rw [List.insertionSort]
    apply orderedInsert_pairwise_lexNear
    · exact ih hp.of_cons
    · intro b hb
      have hbl : b ∈ l :=
        (List.Perm.mem_iff (List.perm_insertionSort _ l)).mp hb
      exact List.rel_of_pairwise_cons hp hbl

theorem length_neighborCandidates :
    ∀ n i : ℕ, i < n → (neighborCandidates n i).length = n - 1 := by
  intro n
  induction n with
  | zero => intro i h; omega
  | succ n ih =>
    intro i h
    unfold neighborCandidates at *
    rw [List.range_succ, List.filter_append, List.length_append]
    by_cases hin : i = n
    · subst hin
      have h1 : (List.range i).filter (fun j => j ≠ i) = List.range i := by
        apply List.filter_eq_self.mpr
        intro a ha
        have := List.mem_range.mp ha
        simp
        omega
      have h2 : [i].filter (fun j => j ≠ i) = [] := by simp
      rw [h1, h2]
      simp
    · have h1 := ih i (by omega)
      have h2 : [n].filter (fun j => j ≠ i) = [n] := by
        simp
        omega
      rw [h1, h2]
      simp
      omega

theorem mem_neighborCandidates {n i j : ℕ} :
    j ∈ neighborCandidates n i ↔ j < n ∧ j ≠ i := by
  unfold neighborCandidates
  simp [List.mem_filter]

theorem pairwise_lt_neighborCandidates (n i : ℕ) :
    (neighborCandidates n i).Pairwise (· < ·) :=
  List.Pairwise.filter _ (List.pairwise_lt_range n)

theorem nodup_neighborIndices (pts : List Vec3) (i K : ℕ) :
    (neighborIndices pts i K).Nodup := by
  unfold neighborIndices sortByDist
  apply List.Nodup.sublist (List.take_sublist _ _)
  apply (List.perm_insertionSort _ _).nodup_iff.mpr
  exact (pairwise_lt_neighborCandidates _ _).imp ne_of_lt

theorem mem_of_mem_neighborIndices {pts : List Vec3} {i K a : ℕ}
    (h : a ∈ neighborIndices pts i K) : a < pts.length ∧ a ≠ i := by
  unfold neighborIndices sortByDist at h
  have h1 := List.take_subset _ _ h
  have h2 := (List.Perm.mem_iff (List.perm_insertionSort _ _)).mp h1
  exact mem_neighborCandidates.mp h2

/-- C5: for every point `i` of a 12-point list and per-point draw
`K ∈ [3,5]`, the neighbour list excludes `i`, has length exactly `K` (hence
within `[3,5]`), is listed in ascending distance order with ties broken by
original index order, and consists of the `K` nearest indices: every
selected index precedes every unselected candidate in the
distance-then-index order. -/
theorem neighbor_list_properties (pts : List Vec3) (i K : ℕ)
    (hi : i < pts.length) (h12 : pts.length = 12) (hK3 : 3 ≤ K) (hK5 : K ≤ 5) :
    i ∉ neighborIndices pts i K ∧
      (neighborIndices pts i K).length = K ∧
      3 ≤ (neighborIndices pts i K).length ∧
      (neighborIndices pts i K).length ≤ 5 ∧
      (neighborIndices pts i K).Pairwise (lexNear (distKey pts i)) ∧
      ∀ a ∈ neighborIndices pts i K, ∀ b < pts.length, b ≠ i →
        b ∉ neighborIndices pts i K → lexNear (distKey pts i) a b := by
  have hsorted : (sortByDist pts i (neighborCandidates pts.length i)).Pairwise
      (lexNear (distKey pts i)) := by
    unfold sortByDist
    exact insertionSort_pairwise_lexNear _ _
      (pairwise_lt_neighborCandidates _ _)
  have hlensorted : (sortByDist pts i (neighborCandidates pts.length i)).length
      = pts.length - 1 := by
    unfold sortByDist
    rw [List.length_insertionSort]
    exact length_neighborCandidates _ _ hi
  refine ⟨?_, ?_, ?_, ?_, ?_, ?_⟩
  · intro hmem
    exact absurd rfl (mem_of_mem_neighborIndices hmem).2
  · unfold neighborIndices
    rw [List.length_take, hlensorted, h12]
    omega
  · unfold neighborIndices
    rw [List.length_take, hlensorted, h12]
    omega
  · unfold neighborIndices
    rw [List.length_take, hlensorted, h12]
    omega
  · unfold neighborIndices
    exact hsorted.sublist (List.take_sublist _ _)
  · intro a ha b hb hbne hbnotin
    unfold neighborIndices at ha hbnotin
    have hbsorted : b ∈ sortByDist pts i (neighborCandidates pts.length i) := by
      unfold sortByDist
      rw [List.Perm.mem_iff (List.perm_insertionSort _ _)]
      exact mem_neighborCandidates.mpr ⟨hb, hbne⟩
    have hbapp : b ∈ (sortByDist pts i (neighborCandidates pts.length i)).take K ++
        (sortByDist pts i (neighborCandidates pts.length i)).drop K := by
      rw [List.take_append_drop]
      exact hbsorted
    have hbdrop : b ∈ (sortByDist pts i (neighborCandidates pts.length i)).drop K := by
      rcases List.mem_append.mp hbapp with h | h
      · exact absurd h hbnotin
      · exact h
    have hsplit : List.Pairwise (lexNear (distKey pts i))
        ((sortByDist pts i (neighborCandidates pts.length i)).take K ++
          (sortByDist pts i (neighborCandidates pts.length i)).drop K) := by
      rw [List.take_append_drop]
      exact hsorted
    exact (List.pairwise_append.mp hsplit).2.2 a ha b hbdrop

/-- C5 witness: the 12 Fibonacci points at radius 1.5, `i = 0`, `K = 3`. -/
theorem neighbor_list_properties_witness :
    (0 < ((List.range 12).map (fibonacciPosition 1.5 12)).length ∧
        ((List.range 12).map (fibonacciPosition 1.5 12)).length = 12 ∧
        3 ≤ 3 ∧ 3 ≤ 5) ∧
      (0 ∉ neighborIndices ((List.range 12).map (fibonacciPosition 1.5 12)) 0 3 ∧
        (neighborIndices ((List.range 12).map (fibonacciPosition 1.5 12)) 0 3).length = 3 ∧
        3 ≤ (neighborIndices ((List.range 12).map (fibonacciPosition 1.5 12)) 0 3).length ∧
        (neighborIndices ((List.range 12).map (fibonacciPosition 1.5 12)) 0 3).length ≤ 5 ∧
        (neighborIndices ((List.range 12).map (fibonacciPosition 1.5 12)) 0 3).Pairwise
          (lexNear (distKey ((List.range 12).map (fibonacciPosition 1.5 12)) 0)) ∧
        ∀ a ∈ neighborIndices ((List.range 12).map (fibonacciPosition 1.5 12)) 0 3,
          ∀ b < ((List.range 12).map (fibonacciPosition 1.5 12)).length, b ≠ 0 →
          b ∉ neighborIndices ((List.range 12).map (fibonacciPosition 1.5 12)) 0 3 →
          lexNear (distKey ((List.range 12).map (fibonacciPosition 1.5 12)) 0) a b) := by
  have hlen : ((List.range 12).map (fibonacciPosition 1.5 12)).length = 12 := by
    simp
  exact ⟨⟨by omega, hlen, by omega, by omega⟩,
    neighbor_list_properties _ 0 3 (by omega) hlen (by omega) (by omega)⟩

/-! ## Network assembler: line dedup -/

/-- The pairs `(i, neighborIndex)` for which the line loop traces a geodesic
curve and appends it: `points.forEach((point, i) => point.neighbors.forEach(
neighborIndex => { if (i < neighborIndex) ... }))`. -/
def drawnPairs (nbrs : ℕ → List ℕ) (n : ℕ) : List (ℕ × ℕ) :=
  (List.range n).flatMap fun i =>
    ((nbrs i).filter (fun j => i < j)).map fun j => (i, j)

/-- The drawn pairs of the assembled network: neighbour lists come from the
nearest-neighbour pass with per-point connection count `K i`. -/
noncomputable def networkDrawnPairs (pts : List Vec3) (K : ℕ → ℕ) : List (ℕ × ℕ) :=
  drawnPairs (fun i => neighborIndices pts i (K i)) pts.length

theorem mem_drawnPairs {nbrs : ℕ → List ℕ} {n : ℕ} {i j : ℕ} :
    (i, j) ∈ drawnPairs nbrs n ↔ i < n ∧ i < j ∧ j ∈ nbrs i := by
  unfold drawnPairs
  rw [List.mem_flatMap]
  constructor
  · rintro ⟨i', hi', hmem⟩
    rcases List.mem_map.mp hmem with ⟨j', hj', heq⟩
    cases heq
    have := List.mem_filter.mp hj'
    exact ⟨List.mem_range.mp hi', by simpa using this.2, this.1⟩
  · rintro ⟨hin, hij, hmem⟩
    refine ⟨i, List.mem_range.mpr hin, ?_⟩
    exact List.mem_map.mpr ⟨j, List.mem_filter.mpr ⟨hmem, by simpa using hij⟩, rfl⟩

theorem nodup_drawnPairs {nbrs : ℕ → List ℕ} {n : ℕ}
    (h : ∀ i, (nbrs i).Nodup) : (drawnPairs nbrs n).Nodup := by
  unfold drawnPairs
  rw [List.nodup_flatMap]
  constructor
  · intro i _
    exact ((h i).filter _).map fun a b hab => congrArg Prod.snd hab
  · apply List.Pairwise.imp ?_ (List.pairwise_lt_range n)
    intro a b hab x hxa hxb
    rcases List.mem_map.mp hxa with ⟨j, _, rfl⟩
    rcases List.mem_map.mp hxb with ⟨j', _, heq⟩
    injection heq with h1 h2
    omega

/-- C4: the assembler traces exactly one geodesic curve per unordered pair
`{i, j}` with `i < j`: a curve for the pair is appended iff the lower-index
point lists the higher one (`j ∈ neighbors i`); no pair is ever drawn twice
(the drawn-pair list is duplicate-free), and the reversed pair `(j, i)` is
never drawn, so a pair listed only by its higher-index point contributes no
curve. -/
theorem network_edge_dedup (pts : List Vec3) (K : ℕ → ℕ) (i j : ℕ)
    (hij : i < j) (hj : j < pts.length) :
    (networkDrawnPairs pts K).Nodup ∧
      ((i, j) ∈ networkDrawnPairs pts K ↔ j ∈ neighborIndices pts i (K i)) ∧
      (j, i) ∉ networkDrawnPairs pts K := by
  unfold networkDrawnPairs
  refine ⟨nodup_drawnPairs (fun i' => nodup_neighborIndices pts i' (K i')), ?_, ?_⟩
  · rw [mem_drawnPairs]
    constructor
    · rintro ⟨_, _, hmem⟩
      exact hmem
    · intro hmem
      exact ⟨lt_trans hij hj, hij, hmem⟩
  · intro hmem
    rcases mem_drawnPairs.mp hmem with ⟨_, hji, _⟩
    omega

/-- C4 witness: the 12 Fibonacci points, `K ≡ 3`, pair `(0, 1)`. -/
theorem network_edge_dedup_witness :
    ((0 : ℕ) < 1 ∧ (1 : ℕ) < ((List.range 12).map (fibonacciPosition 1.5 12)).length) ∧
      ((networkDrawnPairs ((List.range 12).map (fibonacciPosition 1.5 12))
            (fun _ => 3)).Nodup ∧
        ((0, 1) ∈ networkDrawnPairs ((List.range 12).map (fibonacciPosition 1.5 12))
            (fun _ => 3) ↔
          1 ∈ neighborIndices ((List.range 12).map (fibonacciPosition 1.5 12)) 0 3) ∧
        (1, 0) ∉ networkDrawnPairs ((List.range 12).map (fibonacciPosition 1.5 12))
            (fun _ => 3)) := by
  have hlen : ((List.range 12).map (fibonacciPosition 1.5 12)).length = 12 := by
    simp
  refine ⟨⟨by omega, by rw [hlen]; omega⟩, ?_⟩
  exact network_edge_dedup _ _ 0 1 (by omega) (by rw [hlen]; omega)

/-! ## Patch builder (`createSphericalPatch`) -/

/-- JavaScript `Math.atan2(y, x)` (signed zeros aside, which cannot arise
for the non-negative `y` used here). -/
noncomputable def atan2 (y x : ℝ) : ℝ :=
  if 0 < x then Real.arctan (y / x)
  else if x < 0 then
    (if 0 ≤ y then Real.arctan (y / x) + π else Real.arctan (y / x) - π)
  else if 0 < y then π / 2
  else if y < 0 then -(π / 2)
  else 0

/-- The sort key assigned to each neighbour:
`Math.atan2(pos.clone().cross(centerPoint).length(), pos.clone().dot(centerPoint))`. -/
noncomputable def patchAngle (centerPoint pos : Vec3) : ℝ :=
  atan2 ((pos.cross centerPoint).length) (pos.dot centerPoint)

/-- `sortedNeighbors`: the neighbour positions sorted ascending by their
angle key (`.sort((a, b) => a.angle - b.angle)`, a stable sort, modelled by
insertion sort). -/
noncomputable def sortedNeighbors (centerPoint : Vec3) (neighborPoints : List Vec3) :
    List Vec3 :=
  List.insertionSort
    (fun a b => patchAngle centerPoint a ≤ patchAngle centerPoint b) neighborPoints

/-- Barycentric weight `1 - u/segments - v/segments` at `segments = 16`,
exact in `ℚ` (sixteenths are exactly representable in binary floating
point, so the JavaScript comparison agrees with the rational one). -/
def baryW (u v : ℕ) : ℚ := 1 - (u : ℚ) / 16 - (v : ℚ) / 16

/-- One corner of a sub-triangle:
`centerPoint*w + neighbor1*(u/16) + neighbor2*(v/16)`, renormalized and
rescaled (`normalize().multiplyScalar(radius)`). -/
noncomputable def baryVertex (radius : ℝ) (c n1 n2 : Vec3) (u v : ℕ) : Vec3 :=
  radius •
    (((baryW u v : ℚ) : ℝ) • c + ((u : ℝ) / 16) • n1 + ((v : ℝ) / 16) • n2).normalize

/-- One `(u, v)` cell of the subdivision loops: the guarded emission
`if (w1 >= 0 && w2 >= 0 && w3 >= 0) { ...push(p1, p2, p3) }` with
`(u1,v1) = (u,v)/16`, `(u2,v2) = (u+1,v)/16`, `(u3,v3) = (u,v+1)/16`. -/
noncomputable def cellTriangles (radius : ℝ) (c n1 n2 : Vec3) (u v : ℕ) :
    List (Vec3 × Vec3 × Vec3) :=
  if 0 ≤ baryW u v ∧ 0 ≤ baryW (u + 1) v ∧ 0 ≤ baryW u (v + 1) then
    [(baryVertex radius c n1 n2 u v,
      baryVertex radius c n1 n2 (u + 1) v,
      baryVertex radius c n1 n2 u (v + 1))]
  else []

/-- Sub-triangles of fan pair `k`:
`neighbor1 = sortedNeighbors[k]`, `neighbor2 = sortedNeighbors[(k+1) % len]`,
loops `for (u = 0; u < 16; u++) for (v = 0; v < 16 - u; v++)`. -/
noncomputable def fanPairTriangles (radius : ℝ) (c : Vec3) (sorted : List Vec3)
    (k : ℕ) : List (Vec3 × Vec3 × Vec3) :=
  (List.range 16).flatMap fun u =>
    (List.range (16 - u)).flatMap fun v =>
      cellTriangles radius c (sorted.getD k 0) (sorted.getD ((k + 1) % sorted.length) 0) u v

/-- All sub-triangles emitted by `createSphericalPatch` (outer loop
`for (i = 0; i < sortedNeighbors.length; i++)`). -/
noncomputable def patchTriangles (radius : ℝ) (c : Vec3) (neighborPoints : List Vec3) :
    List (Vec3 × Vec3 × Vec3) :=
  (List.range (sortedNeighbors c neighborPoints).length).flatMap
    (fanPairTriangles radius c (sortedNeighbors c neighborPoints))

/-- The flat `vertices` float buffer: 9 coordinates pushed per sub-triangle. -/
noncomputable def patchVertices (radius : ℝ) (c : Vec3) (ns : List Vec3) : List ℝ :=
  (patchTriangles radius c ns).flatMap fun t =>
    [t.1.x, t.1.y, t.1.z, t.2.1.x, t.2.1.y, t.2.1.z, t.2.2.x, t.2.2.y, t.2.2.z]

/-- RGB colour triple, mirroring `THREE.Color`. -/
structure Color where
  r : ℝ
  g : ℝ
  b : ℝ

/-- The flat `colors` float buffer: the centre's colour pushed once per
vertex (`for (k = 0; k < 3; k++) colors.push(r, g, b)`). -/
noncomputable def patchColors (radius : ℝ) (c : Vec3) (ns : List Vec3)
    (color : Color) : List ℝ :=
  (patchTriangles radius c ns).flatMap fun _ =>
    [color.r, color.g, color.b, color.r, color.g, color.b, color.r, color.g, color.b]

/-- The w-guard of the subdivision holds at every `(u, v)` cell the loops
visit, so no iteration is skipped. -/
theorem cell_guard_holds {u v : ℕ} (hu : u < 16) (hv : v < 16 - u) :
    0 ≤ baryW u v ∧ 0 ≤ baryW (u + 1) v ∧ 0 ≤ baryW u (v + 1) := by
  unfold baryW
  have h : (u : ℚ) + v ≤ 15 := by exact_mod_cast (by omega : u + v ≤ 15)
  have hu' : ((u + 1 : ℕ) : ℚ) = (u : ℚ) + 1 := by push_cast; ring
  have hv' : ((v + 1 : ℕ) : ℚ) = (v : ℚ) + 1 := by push_cast; ring
  refine ⟨by linarith, ?_, ?_⟩
  · rw [hu']; linarith
  · rw [hv']; linarith

theorem cellTriangles_length (radius : ℝ) (c n1 n2 : Vec3) {u v : ℕ}
    (hu : u < 16) (hv : v < 16 - u) :
    (cellTriangles radius c n1 n2 u v).length = 1 := by
  unfold cellTriangles
  rw [if_pos (cell_guard_holds hu hv)]
  rfl

theorem length_flatMap_eq_sum {a b : Type} (l : List a) (f : a -> List b)
    (g : a -> Nat) (h : forall x, x ∈ l -> (f x).length = g x) :
    (l.flatMap f).length = (l.map g).sum := by
  rw [List.length_flatMap]
  have hmap : List.map (List.length ∘ f) l = List.map g l := List.map_congr_left h
  rw [hmap]

theorem length_flatMap_const {a b : Type} (l : List a) (f : a -> List b)
    (n : Nat) (h : forall x, x ∈ l -> (f x).length = n) :
    (l.flatMap f).length = l.length * n := by
  rw [length_flatMap_eq_sum l f (fun _ => n) h, List.map_const', List.sum_replicate,
    smul_eq_mul]

theorem fanPairTriangles_length (radius : ℝ) (c : Vec3) (sorted : List Vec3)
    (k : ℕ) : (fanPairTriangles radius c sorted k).length = 136 := by
  unfold fanPairTriangles
  rw [length_flatMap_eq_sum _ _ (fun u => 16 - u) ?houter]
  case houter =>
    intro u hu
    rw [length_flatMap_const _ _ 1 ?hinner]
    · simp
    case hinner =>
      intro v hv
      exact cellTriangles_length _ _ _ _ (List.mem_range.mp hu) (List.mem_range.mp hv)
  decide

theorem patchTriangles_length (radius : ℝ) (c : Vec3) (ns : List Vec3) :
    (patchTriangles radius c ns).length = ns.length * 136 := by
  unfold patchTriangles
  rw [length_flatMap_const _ _ 136 fun k _ => fanPairTriangles_length radius c _ k]
  have hlen : (sortedNeighbors c ns).length = ns.length := by
    unfold sortedNeighbors
    exact List.length_insertionSort _ _
  rw [List.length_range, hlen]

theorem patchVertices_length (radius : ℝ) (c : Vec3) (ns : List Vec3) :
    (patchVertices radius c ns).length = ns.length * 136 * 9 := by
  unfold patchVertices
  rw [length_flatMap_const _ _ 9 ?hv9]
  · rw [patchTriangles_length radius c ns]
  case hv9 => intro t _; rfl

theorem patchColors_length (radius : ℝ) (c : Vec3) (ns : List Vec3)
    (color : Color) :
    (patchColors radius c ns color).length = ns.length * 136 * 9 := by
  unfold patchColors
  rw [length_flatMap_const _ _ 9 ?hc9]
  · rw [patchTriangles_length radius c ns]
  case hc9 => intro t _; rfl

/-- C10: for a centre with `K ≥ 3` neighbours and subdivision 16,
`createSphericalPatch` emits exactly `K·136` sub-triangles (the guard holds
at every visited cell), hence a position buffer of exactly `K·136·9` floats
and a colour buffer of the same length. -/
theorem patch_buffer_sizes (radius : ℝ) (c : Vec3) (ns : List Vec3)
    (color : Color) (h3 : 3 ≤ ns.length) :
    (patchTriangles radius c ns).length = ns.length * 136 ∧
      (patchVertices radius c ns).length = ns.length * 136 * 9 ∧
      (patchColors radius c ns color).length = ns.length * 136 * 9 :=
  ⟨patchTriangles_length radius c ns, patchVertices_length radius c ns,
    patchColors_length radius c ns color⟩

/-- C10 witness: three orthogonal unit neighbours. -/
theorem patch_buffer_sizes_witness :
    3 ≤ ([Vec3.mk 1 0 0, Vec3.mk 0 1 0, Vec3.mk 0 0 1] : List Vec3).length ∧
      ((patchTriangles 1.5 (Vec3.mk 0 0 1)
          [Vec3.mk 1 0 0, Vec3.mk 0 1 0, Vec3.mk 0 0 1]).length
          = 3 * 136 ∧
        (patchVertices 1.5 (Vec3.mk 0 0 1)
          [Vec3.mk 1 0 0, Vec3.mk 0 1 0, Vec3.mk 0 0 1]).length
          = 3 * 136 * 9 ∧
        (patchColors 1.5 (Vec3.mk 0 0 1)
          [Vec3.mk 1 0 0, Vec3.mk 0 1 0, Vec3.mk 0 0 1]
          (Color.mk 1 0 0)).length = 3 * 136 * 9) :=
  ⟨by norm_num,
    patch_buffer_sizes 1.5 (Vec3.mk 0 0 1)
      [Vec3.mk 1 0 0, Vec3.mk 0 1 0, Vec3.mk 0 0 1] (Color.mk 1 0 0)
      (by norm_num)⟩

/-- The `Point` record of the component: position, neighbour indices,
colour. -/
structure PointData where
  position : Vec3
  neighbors : List ℕ
  color : Color

/-- Fallback `PointData` used by the total indexing `getD` (never reached
for in-range indices). -/
def defaultPoint : PointData := ⟨0, [], ⟨0, 0, 0⟩⟩

/-- The patch pass of the assembler:
`points.forEach((point, i) => { if (point.neighbors.length >= 3) {
  ...createSphericalPatch(point.position, neighborPositions, point.color);
  patchGeometries.push(...) } })`, each patch identified here by its
position buffer. -/
noncomputable def patchList (radius : ℝ) (pts : List PointData) : List (List ℝ) :=
  pts.flatMap fun point =>
    if 3 ≤ point.neighbors.length then
      [patchVertices radius point.position
        (point.neighbors.map fun ni => (pts.getD ni defaultPoint).position)]
    else []

theorem flatMap_if_singleton {α β : Type} (p : α → Prop) [DecidablePred p]
    (f : α → β) (l : List α) :
    (l.flatMap fun a => if p a then [f a] else []) =
      (l.filter fun a => p a).map f := by
  induction l with
  | nil => rfl
  | cons a l ih =>
    rw [List.flatMap_cons, List.filter_cons]
    by_cases hpa : p a
    · rw [if_pos hpa, if_pos (by simpa using hpa), List.map_cons, ih]
      rfl
    · rw [if_neg hpa, if_neg (by simpa using hpa), ih]
      rfl

/-- C8: the patch builder is invoked exactly for the points whose neighbour
list has length at least 3 (the patch pass equals mapping the builder over
exactly those points), and each patch it builds has a non-empty position
buffer; a point with fewer than 3 neighbours contributes no patch. -/
theorem patch_invocation (radius : ℝ) (pts : List PointData) :
    patchList radius pts =
      ((pts.filter fun point => 3 ≤ point.neighbors.length).map fun point =>
        patchVertices radius point.position
          (point.neighbors.map fun ni => (pts.getD ni defaultPoint).position)) ∧
      ∀ buf ∈ patchList radius pts, buf ≠ [] := by
  have heq := flatMap_if_singleton (fun point : PointData => 3 ≤ point.neighbors.length)
    (fun point => patchVertices radius point.position
      (point.neighbors.map fun ni => (pts.getD ni defaultPoint).position)) pts
  refine ⟨heq, ?_⟩
  intro buf hbuf
  unfold patchList at hbuf
  rw [heq] at hbuf
  rcases List.mem_map.mp hbuf with ⟨point, hpt, rfl⟩
  have h3 : 3 ≤ point.neighbors.length := by
    have := List.of_mem_filter hpt
    simpa using this
  have hlen : (patchVertices radius point.position
      (point.neighbors.map fun ni => (pts.getD ni defaultPoint).position)).length
      = point.neighbors.length * 136 * 9 := by
    have := patchVertices_length radius point.position
      (point.neighbors.map fun ni => (pts.getD ni defaultPoint).position)
    simpa using this
  intro hnil
  rw [hnil] at hlen
  simp only [List.length_nil] at hlen
  omega

theorem normalize_zero : (0 : Vec3).normalize = 0 := by
  unfold Vec3.normalize
  rw [if_pos (Vec3.length_eq_zero.mpr rfl)]

theorem smul_zero' (c : ℝ) : c • (0 : Vec3) = 0 := by ext <;> simp

theorem baryVertex_length_or_zero (radius : ℝ) (c n1 n2 : Vec3) (u v : ℕ)
    (hr : 0 < radius) :
    (baryVertex radius c n1 n2 u v).length = radius ∨
      baryVertex radius c n1 n2 u v = 0 := by
  unfold baryVertex
  by_cases hw : ((baryW u v : ℚ) : ℝ) • c + ((u : ℝ) / 16) • n1 +
      ((v : ℝ) / 16) • n2 = 0
  · right
    rw [hw, normalize_zero, smul_zero']
  · left
    rw [Vec3.length_smul, Vec3.normalize_length hw, mul_one, abs_of_pos hr]

/-- C9 (amended): for a centre with at least 3 neighbours, all of magnitude
`radius`, every vertex emitted into the patch's position buffer has
magnitude exactly `radius` UNLESS its barycentric combination degenerates to
the zero vector, in which case the emitted vertex is the origin (three.js
`normalize()` maps the zero vector to itself). -/
theorem patch_vertices_on_sphere_or_zero (radius : ℝ) (c : Vec3) (ns : List Vec3)
    (hr : 0 < radius) (hc : c.length = radius) (hns : ∀ n ∈ ns, n.length = radius)
    (h3 : 3 ≤ ns.length) :
    ∀ t ∈ patchTriangles radius c ns,
      (t.1.length = radius ∨ t.1 = 0) ∧
        (t.2.1.length = radius ∨ t.2.1 = 0) ∧
        (t.2.2.length = radius ∨ t.2.2 = 0) := by
  intro t ht
  unfold patchTriangles at ht
  rw [List.mem_flatMap] at ht
  obtain ⟨k, _, ht⟩ := ht
  unfold fanPairTriangles at ht
  rw [List.mem_flatMap] at ht
  obtain ⟨u, _, ht⟩ := ht
  rw [List.mem_flatMap] at ht
  obtain ⟨v, _, ht⟩ := ht
  unfold cellTriangles at ht
  by_cases hg : 0 ≤ baryW u v ∧ 0 ≤ baryW (u + 1) v ∧ 0 ≤ baryW u (v + 1)
  · rw [if_pos hg] at ht
    rcases List.mem_singleton.mp ht with rfl
    exact ⟨baryVertex_length_or_zero _ _ _ _ _ _ hr,
      baryVertex_length_or_zero _ _ _ _ _ _ hr,
      baryVertex_length_or_zero _ _ _ _ _ _ hr⟩
  · rw [if_neg hg] at ht
    exact absurd ht (List.not_mem_nil t)

/-- C9 amended-claim witness: centre `(0,0,1)` with the three unit
neighbours `(1,0,0)`, `(0,1,0)`, `(0,0,-1)` at radius 1. -/
theorem patch_vertices_on_sphere_or_zero_witness :
    ((0 : ℝ) < 1 ∧ (Vec3.mk 0 0 1).length = 1 ∧
        (∀ n ∈ ([Vec3.mk 1 0 0, Vec3.mk 0 1 0, Vec3.mk 0 0 (-1)] : List Vec3),
          n.length = 1) ∧
        3 ≤ ([Vec3.mk 1 0 0, Vec3.mk 0 1 0, Vec3.mk 0 0 (-1)] : List Vec3).length) ∧
      ∀ t ∈ patchTriangles 1 (Vec3.mk 0 0 1)
          [Vec3.mk 1 0 0, Vec3.mk 0 1 0, Vec3.mk 0 0 (-1)],
        (t.1.length = 1 ∨ t.1 = 0) ∧
          (t.2.1.length = 1 ∨ t.2.1 = 0) ∧
          (t.2.2.length = 1 ∨ t.2.2 = 0) := by
  have hc : (Vec3.mk 0 0 1).length = 1 := by
    unfold Vec3.length Vec3.lengthSq
    norm_num
  have hns : ∀ n ∈ ([Vec3.mk 1 0 0, Vec3.mk 0 1 0, Vec3.mk 0 0 (-1)] : List Vec3),
      n.length = 1 := by
    intro n hn
    rcases List.mem_cons.mp hn with rfl | hn
    · unfold Vec3.length Vec3.lengthSq; norm_num
    rcases List.mem_cons.mp hn with rfl | hn
    · unfold Vec3.length Vec3.lengthSq; norm_num
    rcases List.mem_cons.mp hn with rfl | hn
    · unfold Vec3.length Vec3.lengthSq; norm_num
    · exact absurd hn (List.not_mem_nil n)
  exact ⟨⟨by norm_num, hc, hns, by norm_num⟩,
    patch_vertices_on_sphere_or_zero 1 (Vec3.mk 0 0 1)
      [Vec3.mk 1 0 0, Vec3.mk 0 1 0, Vec3.mk 0 0 (-1)]
      (by norm_num) hc hns (by norm_num)⟩

theorem patchAngle_m1 :
    patchAngle (Vec3.mk 0 0 1) (Vec3.mk 1 0 0) = π / 2 := by
  unfold patchAngle
  have hcr : (Vec3.mk 1 0 0).cross (Vec3.mk 0 0 1) = Vec3.mk 0 (-1) 0 := by
    unfold Vec3.cross; ext <;> norm_num
  have hlen : (Vec3.mk 0 (-1) 0).length = 1 := by
    unfold Vec3.length Vec3.lengthSq; norm_num
  have hdot : (Vec3.mk 1 0 0).dot (Vec3.mk 0 0 1) = 0 := by
    unfold Vec3.dot; norm_num
  rw [hcr, hlen, hdot]
  unfold atan2
  norm_num

theorem patchAngle_m2 :
    patchAngle (Vec3.mk 0 0 1) (Vec3.mk 0 1 0) = π / 2 := by
  unfold patchAngle
  have hcr : (Vec3.mk 0 1 0).cross (Vec3.mk 0 0 1) = Vec3.mk 1 0 0 := by
    unfold Vec3.cross; ext <;> norm_num
  have hlen : (Vec3.mk 1 0 0).length = 1 := by
    unfold Vec3.length Vec3.lengthSq; norm_num
  have hdot : (Vec3.mk 0 1 0).dot (Vec3.mk 0 0 1) = 0 := by
    unfold Vec3.dot; norm_num
  rw [hcr, hlen, hdot]
  unfold atan2
  norm_num

theorem patchAngle_m3 :
    patchAngle (Vec3.mk 0 0 1) (Vec3.mk 0 0 (-1)) = π := by
  unfold patchAngle
  have hcr : (Vec3.mk 0 0 (-1)).cross (Vec3.mk 0 0 1) = Vec3.mk 0 0 0 := by
    unfold Vec3.cross; ext <;> norm_num
  have hlen : (Vec3.mk 0 0 0).length = 0 := by
    unfold Vec3.length Vec3.lengthSq; norm_num
  have hdot : (Vec3.mk 0 0 (-1)).dot (Vec3.mk 0 0 1) = -1 := by
    unfold Vec3.dot; norm_num
  rw [hcr, hlen, hdot]
  unfold atan2
  norm_num

theorem sortedNeighbors_ortho :
    sortedNeighbors (Vec3.mk 0 0 1)
        [Vec3.mk 1 0 0, Vec3.mk 0 1 0, Vec3.mk 0 0 (-1)] =
      [Vec3.mk 1 0 0, Vec3.mk 0 1 0, Vec3.mk 0 0 (-1)] := by
  unfold sortedNeighbors
  apply List.Sorted.insertionSort_eq
  simp only [List.sorted_cons, List.mem_cons, List.mem_singleton]
  refine ⟨?_, ?_, ?_⟩
  · rintro b (rfl | rfl | h)
    · rw [patchAngle_m1, patchAngle_m2]
    · rw [patchAngle_m1, patchAngle_m3]
      linarith [Real.pi_pos]
    · exact absurd h (List.not_mem_nil b)
  · rintro b (rfl | h)
    · rw [patchAngle_m2, patchAngle_m3]
      linarith [Real.pi_pos]
    · exact absurd h (List.not_mem_nil b)
  · simp

theorem degenerate_vertex_eq_zero :
    baryVertex 1 (Vec3.mk 0 0 1) (Vec3.mk 0 1 0) (Vec3.mk 0 0 (-1)) 0 8 = 0 := by
  unfold baryVertex
  have hw : ((baryW 0 8 : ℚ) : ℝ) = 1 / 2 := by
    unfold baryW; push_cast; norm_num
  rw [hw]
  have hcombo : ((1 : ℝ) / 2) • Vec3.mk 0 0 1 +
      (((0 : ℕ) : ℝ) / 16) • Vec3.mk 0 1 0 +
      (((8 : ℕ) : ℝ) / 16) • Vec3.mk 0 0 (-1) = 0 := by
    ext <;> simp <;> norm_num
  rw [hcombo, normalize_zero, smul_zero']

theorem degenerate_triangle_mem :
    (baryVertex 1 (Vec3.mk 0 0 1) (Vec3.mk 0 1 0) (Vec3.mk 0 0 (-1)) 0 8,
      baryVertex 1 (Vec3.mk 0 0 1) (Vec3.mk 0 1 0) (Vec3.mk 0 0 (-1)) 1 8,
      baryVertex 1 (Vec3.mk 0 0 1) (Vec3.mk 0 1 0) (Vec3.mk 0 0 (-1)) 0 9) ∈
      patchTriangles 1 (Vec3.mk 0 0 1)
        [Vec3.mk 1 0 0, Vec3.mk 0 1 0, Vec3.mk 0 0 (-1)] := by
  unfold patchTriangles
  rw [sortedNeighbors_ortho, List.mem_flatMap]
  refine ⟨1, by simp, ?_⟩
  unfold fanPairTriangles
  rw [List.mem_flatMap]
  refine ⟨0, by simp, ?_⟩
  rw [List.mem_flatMap]
  refine ⟨8, by simp, ?_⟩
  have hg1 : ([Vec3.mk 1 0 0, Vec3.mk 0 1 0, Vec3.mk 0 0 (-1)] :
      List Vec3).getD 1 0 = Vec3.mk 0 1 0 := rfl
  have hg2 : ([Vec3.mk 1 0 0, Vec3.mk 0 1 0, Vec3.mk 0 0 (-1)] :
      List Vec3).getD ((1 + 1) %
        ([Vec3.mk 1 0 0, Vec3.mk 0 1 0, Vec3.mk 0 0 (-1)] : List Vec3).length) 0
      = Vec3.mk 0 0 (-1) := rfl
  rw [hg1, hg2]
  unfold cellTriangles
  rw [if_pos (by unfold baryW; norm_num)]
  exact List.mem_singleton.mpr rfl

/-- C9 counterexample: centre `(0,0,1)` with unit neighbours `(1,0,0)`,
`(0,1,0)`, `(0,0,-1)` (the last antipodal to the centre) at radius 1.  The
cell `(u,v) = (0,8)` of the fan pair `(neighbor2, neighbor3)` produces the
barycentric combination `½·center + ½·neighbor3 = 0`, which `normalize()`
leaves at the origin, so the emitted vertex has magnitude 0, not the sphere
radius. -/
theorem patch_vertex_off_sphere :
    (Vec3.mk 0 0 1).length = 1 ∧
      (∀ n ∈ ([Vec3.mk 1 0 0, Vec3.mk 0 1 0, Vec3.mk 0 0 (-1)] : List Vec3),
        n.length = 1) ∧
      3 ≤ ([Vec3.mk 1 0 0, Vec3.mk 0 1 0, Vec3.mk 0 0 (-1)] : List Vec3).length ∧
      ¬ ∀ t ∈ patchTriangles 1 (Vec3.mk 0 0 1)
          [Vec3.mk 1 0 0, Vec3.mk 0 1 0, Vec3.mk 0 0 (-1)],
          t.1.length = 1 ∧ t.2.1.length = 1 ∧ t.2.2.length = 1 := by
  refine ⟨?_, ?_, by norm_num, ?_⟩
  · unfold Vec3.length Vec3.lengthSq
    norm_num
  · intro n hn
    rcases List.mem_cons.mp hn with rfl | hn
    · unfold Vec3.length Vec3.lengthSq; norm_num
    rcases List.mem_cons.mp hn with rfl | hn
    · unfold Vec3.length Vec3.lengthSq; norm_num
    rcases List.mem_cons.mp hn with rfl | hn
    · unfold Vec3.length Vec3.lengthSq; norm_num
    · exact absurd hn (List.not_mem_nil n)
  · intro hall
    have h := (hall _ degenerate_triangle_mem).1
    rw [degenerate_vertex_eq_zero] at h
    rw [Vec3.length_eq_zero.mpr rfl] at h
    norm_num at h

/-! ## The neighbour sort key versus "angle around the center" (C3) -/

/-- Azimuthal angle of a point about the `+z` axis: the actual "angle around
the center" when the centre point is the north pole `(0, 0, radius)`. -/
noncomputable def azimuth (n : Vec3) : ℝ := atan2 n.y n.x

/-- A sequence of angles is in a consistent cyclic winding order iff some
rotation of it is monotone (ascending or descending). -/
def cyclicallyMonotone (l : List ℝ) : Prop :=
  ∃ k : ℕ, List.Chain' (fun a b => a ≤ b) (l.rotate k) ∨
    List.Chain' (fun a b => b ≤ a) (l.rotate k)

/-- For a neighbour in the `xz`-plane and the centre at the north pole, the
code's sort key collapses to `atan2(|x|, z)`: it is independent of the
azimuth of the neighbour (rotation-invariant about the centre's axis). -/
theorem patchAngle_northpole (a b : ℝ) :
    patchAngle (Vec3.mk 0 0 1) (Vec3.mk a 0 b) = atan2 |a| b := by
  unfold patchAngle
  have hcr : (Vec3.mk a 0 b).cross (Vec3.mk 0 0 1) = Vec3.mk 0 (-a) 0 := by
    unfold Vec3.cross; ext <;> simp
  have hlen : (Vec3.mk 0 (-a) 0).length = |a| := by
    unfold Vec3.length Vec3.lengthSq
    rw [show ((Vec3.mk 0 (-a) 0).x * (Vec3.mk 0 (-a) 0).x +
      (Vec3.mk 0 (-a) 0).y * (Vec3.mk 0 (-a) 0).y +
      (Vec3.mk 0 (-a) 0).z * (Vec3.mk 0 (-a) 0).z : ℝ) = a ^ 2 by simp; ring,
      Real.sqrt_sq_eq_abs]
  have hdot : (Vec3.mk a 0 b).dot (Vec3.mk 0 0 1) = b := by
    unfold Vec3.dot; simp
  rw [hcr, hlen, hdot]

theorem azimuth_xz (a b : ℝ) : azimuth (Vec3.mk a 0 b) = atan2 0 a := rfl

theorem atan2_pos_x {y x : ℝ} (hx : 0 < x) : atan2 y x = Real.arctan (y / x) := by
  unfold atan2
  rw [if_pos hx]

theorem atan2_zero_neg_x {x : ℝ} (hx : x < 0) : atan2 0 x = π := by
  unfold atan2
  rw [if_neg (by linarith), if_pos hx, if_pos le_rfl, zero_div,
    Real.arctan_zero, zero_add]

theorem atan2_zero_pos_x {x : ℝ} (hx : 0 < x) : atan2 0 x = 0 := by
  rw [atan2_pos_x hx, zero_div, Real.arctan_zero]

theorem not_cyclicallyMonotone_alt :
    ¬ cyclicallyMonotone [0, π, 0, π] := by
  rintro ⟨k, hk⟩
  have hlen : ([0, π, 0, π] : List ℝ).length = 4 := rfl
  rw [← List.rotate_mod, hlen] at hk
  have h4 : k % 4 = 0 ∨ k % 4 = 1 ∨ k % 4 = 2 ∨ k % 4 = 3 := by omega
  rcases h4 with h | h | h | h <;> rw [h] at hk <;>
    simp [List.rotate, List.chain'_cons] at hk <;>
    rcases hk with hk | hk <;>
    linarith [Real.pi_pos]

/-- C3 refutation: centre at the north pole `(0,0,1)` with four unit
neighbours in the `xz`-plane, at strictly increasing angular distance from
the centre but alternating azimuth `0, π, 0, π`.  The code's key
`atan2(|n×c|, n·c)` sorts them into exactly this alternating order, whose
azimuth sequence is not cyclically monotone in any rotation or direction:
the key measures angular distance *to* the centre, not angle *around* it,
so the sorted fan is not in a consistent winding order. -/
theorem patch_sort_not_winding :
    (Vec3.mk 0 0 1).length = 1 ∧
      (∀ n ∈ ([Vec3.mk (7/25) 0 (24/25), Vec3.mk (-(5/13)) 0 (12/13),
          Vec3.mk (3/5) 0 (4/5), Vec3.mk (-(4/5)) 0 (3/5)] : List Vec3),
        n.length = 1) ∧
      3 ≤ ([Vec3.mk (7/25) 0 (24/25), Vec3.mk (-(5/13)) 0 (12/13),
          Vec3.mk (3/5) 0 (4/5), Vec3.mk (-(4/5)) 0 (3/5)] : List Vec3).length ∧
      sortedNeighbors (Vec3.mk 0 0 1)
          [Vec3.mk (7/25) 0 (24/25), Vec3.mk (-(5/13)) 0 (12/13),
            Vec3.mk (3/5) 0 (4/5), Vec3.mk (-(4/5)) 0 (3/5)] =
        [Vec3.mk (7/25) 0 (24/25), Vec3.mk (-(5/13)) 0 (12/13),
          Vec3.mk (3/5) 0 (4/5), Vec3.mk (-(4/5)) 0 (3/5)] ∧
      ((sortedNeighbors (Vec3.mk 0 0 1)
          [Vec3.mk (7/25) 0 (24/25), Vec3.mk (-(5/13)) 0 (12/13),
            Vec3.mk (3/5) 0 (4/5), Vec3.mk (-(4/5)) 0 (3/5)]).map azimuth) =
        [0, π, 0, π] ∧
      ¬ cyclicallyMonotone ((sortedNeighbors (Vec3.mk 0 0 1)
          [Vec3.mk (7/25) 0 (24/25), Vec3.mk (-(5/13)) 0 (12/13),
            Vec3.mk (3/5) 0 (4/5), Vec3.mk (-(4/5)) 0 (3/5)]).map azimuth) := by
  have kA : patchAngle (Vec3.mk 0 0 1) (Vec3.mk (7/25) 0 (24/25))
      = Real.arctan (7/24) := by
    rw [patchAngle_northpole, atan2_pos_x (by norm_num)]
    rw [abs_of_pos (by norm_num)]
    norm_num
  have kB : patchAngle (Vec3.mk 0 0 1) (Vec3.mk (-(5/13)) 0 (12/13))
      = Real.arctan (5/12) := by
    rw [patchAngle_northpole, atan2_pos_x (by norm_num)]
    rw [abs_of_neg (by norm_num)]
    norm_num
  have kC : patchAngle (Vec3.mk 0 0 1) (Vec3.mk (3/5) 0 (4/5))
      = Real.arctan (3/4) := by
    rw [patchAngle_northpole, atan2_pos_x (by norm_num)]
    rw [abs_of_pos (by norm_num)]
    norm_num
  have kD : patchAngle (Vec3.mk 0 0 1) (Vec3.mk (-(4/5)) 0 (3/5))
      = Real.arctan (4/3) := by
    rw [patchAngle_northpole, atan2_pos_x (by norm_num)]
    rw [abs_of_neg (by norm_num)]
    norm_num
  have hmono := Real.arctan_strictMono.monotone
  have hsort : sortedNeighbors (Vec3.mk 0 0 1)
      [Vec3.mk (7/25) 0 (24/25), Vec3.mk (-(5/13)) 0 (12/13),
        Vec3.mk (3/5) 0 (4/5), Vec3.mk (-(4/5)) 0 (3/5)] =
      [Vec3.mk (7/25) 0 (24/25), Vec3.mk (-(5/13)) 0 (12/13),
        Vec3.mk (3/5) 0 (4/5), Vec3.mk (-(4/5)) 0 (3/5)] := by
    unfold sortedNeighbors
    apply List.Sorted.insertionSort_eq
    simp only [List.sorted_cons, List.mem_cons, List.mem_singleton]
    refine ⟨?_, ?_, ?_, ?_⟩
    · rintro b (rfl | rfl | rfl | h)
      · rw [kA, kB]; exact hmono (by norm_num)
      · rw [kA, kC]; exact hmono (by norm_num)
      · rw [kA, kD]; exact hmono (by norm_num)
      · exact absurd h (List.not_mem_nil b)
    · rintro b (rfl | rfl | h)
      · rw [kB, kC]; exact hmono (by norm_num)
      · rw [kB, kD]; exact hmono (by norm_num)
      · exact absurd h (List.not_mem_nil b)
    · rintro b (rfl | h)
      · rw [kC, kD]; exact hmono (by norm_num)
      · exact absurd h (List.not_mem_nil b)
    · simp
  have hazA : azimuth (Vec3.mk (7/25) 0 (24/25)) = 0 := by
    rw [azimuth_xz, atan2_zero_pos_x (by norm_num)]
  have hazB : azimuth (Vec3.mk (-(5/13)) 0 (12/13)) = π := by
    rw [azimuth_xz, atan2_zero_neg_x (by norm_num)]
  have hazC : azimuth (Vec3.mk (3/5) 0 (4/5)) = 0 := by
    rw [azimuth_xz, atan2_zero_pos_x (by norm_num)]
  have hazD : azimuth (Vec3.mk (-(4/5)) 0 (3/5)) = π := by
    rw [azimuth_xz, atan2_zero_neg_x (by norm_num)]
  have hmap : ((sortedNeighbors (Vec3.mk 0 0 1)
      [Vec3.mk (7/25) 0 (24/25), Vec3.mk (-(5/13)) 0 (12/13),
        Vec3.mk (3/5) 0 (4/5), Vec3.mk (-(4/5)) 0 (3/5)]).map azimuth) =
      [0, π, 0, π] := by
    rw [hsort]
    simp only [List.map_cons, List.map_nil, hazA, hazB, hazC, hazD]
  refine ⟨?_, ?_, by norm_num, hsort, hmap, ?_⟩
  · unfold Vec3.length Vec3.lengthSq
    norm_num
  · intro n hn
    rcases List.mem_cons.mp hn with rfl | hn
    · unfold Vec3.length Vec3.lengthSq
      rw [show ((Vec3.mk (7/25) 0 (24/25)).x * (Vec3.mk (7/25) 0 (24/25)).x +
        (Vec3.mk (7/25) 0 (24/25)).y * (Vec3.mk (7/25) 0 (24/25)).y +
        (Vec3.mk (7/25) 0 (24/25)).z * (Vec3.mk (7/25) 0 (24/25)).z : ℝ)
        = 1 by norm_num]
      exact Real.sqrt_one
    rcases List.mem_cons.mp hn with rfl | hn
    · unfold Vec3.length Vec3.lengthSq
      rw [show ((Vec3.mk (-(5/13)) 0 (12/13)).x * (Vec3.mk (-(5/13)) 0 (12/13)).x +
        (Vec3.mk (-(5/13)) 0 (12/13)).y * (Vec3.mk (-(5/13)) 0 (12/13)).y +
        (Vec3.mk (-(5/13)) 0 (12/13)).z * (Vec3.mk (-(5/13)) 0 (12/13)).z : ℝ)
        = 1 by norm_num]
      exact Real.sqrt_one
    rcases List.mem_cons.mp hn with rfl | hn
    · unfold Vec3.length Vec3.lengthSq
      rw [show ((Vec3.mk (3/5) 0 (4/5)).x * (Vec3.mk (3/5) 0 (4/5)).x +
        (Vec3.mk (3/5) 0 (4/5)).y * (Vec3.mk (3/5) 0 (4/5)).y +
        (Vec3.mk (3/5) 0 (4/5)).z * (Vec3.mk (3/5) 0 (4/5)).z : ℝ)
        = 1 by norm_num]
      exact Real.sqrt_one
    rcases List.mem_cons.mp hn with rfl | hn
    · unfold Vec3.length Vec3.lengthSq
      rw [show ((Vec3.mk (-(4/5)) 0 (3/5)).x * (Vec3.mk (-(4/5)) 0 (3/5)).x +
        (Vec3.mk (-(4/5)) 0 (3/5)).y * (Vec3.mk (-(4/5)) 0 (3/5)).y +
        (Vec3.mk (-(4/5)) 0 (3/5)).z * (Vec3.mk (-(4/5)) 0 (3/5)).z : ℝ)
        = 1 by norm_num]
      exact Real.sqrt_one
    · exact absurd hn (List.not_mem_nil n)
  · rw [hmap]
    exact not_cyclicallyMonotone_alt

end GeodesicNet
